import Mathlib

/-!
Verification of the fasthttp download engine (fasthttp.go).

The Go source is shallowly embedded: each Go function that the claims
touch becomes a Lean definition over explicit inputs.  Network effects
(the HEAD response, each range request's response, the stream of
`Read` results on a response body) are passed in as data; the
definitions mirror the Go control flow over that data.  Byte values
are `Nat`, Go `int64` values are `Int` (no arithmetic here approaches
the `int64` range, so overflow never fires and plain `Int` is exact).
-/

namespace Fasthttp

/-- A byte range as passed to `getRange`: zero-indexed, inclusive on
both ends.  `stop < start` is the sentinel meaning "whole resource,
not a range request".  (`stop` embeds the Go variable `end`, a
reserved word in Lean.) -/
structure Range where
  start : Int
  stop : Int
deriving DecidableEq, Repr

/-- Number of bytes a proper (non-sentinel) range covers. -/
def Range.rlen (r : Range) : Int := r.stop - r.start + 1

/-- The range-planning loop of `download` (fasthttp.go lines 168-182):

    offset := int64(0)
    for offset < length {
        start := offset
        end := start + blocksize + remainder - 1
        ... getRange(f, u, start, end) ...
        offset = end + 1
        remainder = 0
    }

returning the list of (start, end) pairs handed to the spawned
fetchers, in spawn order.  The loop variable `offset` strictly
increases by at least `blocksize` per iteration, so when
`blocksize ≥ 1` the loop runs at most `length` times; `fuel` makes the
recursion structural and is instantiated large enough for that. -/
def planLoop (fuel : Nat) (length blocksize remainder offset : Int) : List Range :=
  match fuel with
  | 0 => []
  | fuel + 1 =>
    if offset < length then
      let start := offset
      let stop := start + blocksize + remainder - 1
      ⟨start, stop⟩ :: planLoop fuel length blocksize 0 (stop + 1)
    else []

/-- The dispatch plan of `download` (fasthttp.go lines 133-182): which
(start, end) pairs `download` passes to `getRange`, as a function of
`length` and `threads`.  `threads = 0` is the error return at line
136; `length < threads` collapses `threads` to 1 (line 143-145);
`threads = 1` is the single whole-resource call `getRange(f, u, 0, -1)`
(line 150); otherwise the loop dispatches one fetcher per computed
range with `blocksize = length / threads`, `remainder = length %
threads` (Go's `int64` division; `length ≥ 0` in every reachable
call, where it agrees with Lean's `Int` division). -/
def download_ranges (length : Int) (threads : Nat) : Except String (List Range) :=
  if threads = 0 then
    .error ("cannot download using " ++ toString threads ++ " threads")
  else
    let threads := if length < (threads : Int) then 1 else threads
    if threads = 1 then
      .ok [⟨0, -1⟩]
    else
      let blocksize := length / (threads : Int)
      let remainder := length % (threads : Int)
      .ok (planLoop (length.toNat + 1) length blocksize remainder 0)

/-- The error-collection loop of `download` (fasthttp.go lines
185-190):

    var err error
    go func() { for e := range errors { err = e } }()

`received` is the sequence of values received on the unbuffered
`errors` channel, i.e. the fetchers' results in completion order
(each fetcher sends exactly one value, `nil` = `none` on success).
The loop overwrites `err` with every received value, so `download`
returns the last one. -/
def collectErrors (received : List (Option String)) : Option String :=
  received.foldl (fun _ e => e) none

/-- The byte span a dispatched range covers, for a resource of total
length `length`: a sentinel range is the whole resource `[0, length)`,
a proper range is its inclusive `[start, stop]` span. -/
def Range.spans (r : Range) (length x : Int) : Prop :=
  if r.stop < r.start then 0 ≤ x ∧ x < length else r.start ≤ x ∧ x ≤ r.stop

instance (r : Range) (length x : Int) : Decidable (r.spans length x) := by
  unfold Range.spans; infer_instance

/-- Two ranges are disjoint (for resource length `length`) when no
byte offset lies in both spans. -/
def Range.disjoint (length : Int) (r1 r2 : Range) : Prop :=
  ∀ x : Int, ¬(r1.spans length x ∧ r2.spans length x)

end Fasthttp

namespace Fasthttp

/-- Closed form of the planning loop's tail after the remainder has
been zeroed: `k` contiguous ranges of length `b` starting at `off`. -/
def rangesFrom (off b : Int) : Nat → List Range
  | 0 => []
  | k + 1 => ⟨off, off + b - 1⟩ :: rangesFrom (off + b) b k

theorem planLoop_nil (fuel : Nat) (length b r off : Int) (h : ¬ off < length) :
    planLoop fuel length b r off = [] := by
  match fuel with
  | 0 => rfl
  | fuel + 1 => unfold planLoop; rw [if_neg h]

theorem planLoop_cons (fuel : Nat) (length b r off : Int) (h : off < length) :
    planLoop (fuel + 1) length b r off =
      ⟨off, off + b + r - 1⟩ :: planLoop fuel length b 0 (off + b + r) := by
  rw [show planLoop (fuel + 1) length b r off =
        if off < length then
          ⟨off, off + b + r - 1⟩ :: planLoop fuel length b 0 (off + b + r - 1 + 1)
        else [] from rfl,
      if_pos h]
  have harg : off + b + r - 1 + 1 = off + b + r := by ring
  rw [harg]

theorem planLoop_closed (k : Nat) : ∀ (fuel : Nat) (off b : Int), 1 ≤ b → k ≤ fuel →
    planLoop fuel (off + b * k) b 0 off = rangesFrom off b k := by
  induction k with
  | zero =>
    intro fuel off b _ _
    apply planLoop_nil
    simp
  | succ k ih =>
    intro fuel off b hb hfuel
    match fuel with
    | 0 => omega
    | fuel + 1 =>
      have hlt : off < off + b * ((k : Nat) + 1 : Nat) := by
        have h1 : (1 : Int) * 1 ≤ b * ((k : Nat) + 1 : Nat) := by
          apply mul_le_mul hb _ (by norm_num) (by omega)
          push_cast; omega
        omega
      rw [planLoop_cons fuel _ b 0 off hlt]
      have e1 : off + b + 0 = off + b := by ring
      have e2 : off + b * ((k : Nat) + 1 : Nat) = (off + b) + b * (k : Nat) := by
        push_cast; ring
      rw [e1, e2, ih fuel (off + b) b hb (by omega)]
      show (⟨off, off + b - 1⟩ : Range) :: _ = _
      rfl

theorem rangesFrom_length (b : Int) (k : Nat) : ∀ off, (rangesFrom off b k).length = k := by
  induction k with
  | zero => intro off; rfl
  | succ k ih =>
    intro off
    show (rangesFrom (off + b) b k).length + 1 = k + 1
    rw [ih]

theorem rangesFrom_bounds (b : Int) (hb : 1 ≤ b) (k : Nat) :
    ∀ off, ∀ r ∈ rangesFrom off b k,
      off ≤ r.start ∧ r.start ≤ r.stop ∧ r.stop ≤ off + b * k - 1 := by
  induction k with
  | zero => intro off r hr; simp [rangesFrom] at hr
  | succ k ih =>
    intro off r hr
    have hbk : 0 ≤ b * (k : Int) := mul_nonneg (by omega) (by positivity)
    have hexp : b * ((k : Nat) + 1 : Nat) = b * (k : Int) + b := by push_cast; ring
    simp only [rangesFrom, List.mem_cons] at hr
    rcases hr with hr | hr
    · subst hr
      refine ⟨le_refl off, ?_, ?_⟩
      · show off ≤ off + b - 1
        omega
      · show off + b - 1 ≤ off + b * ((k : Nat) + 1 : Nat) - 1
        rw [hexp]; omega
    · obtain ⟨h1, h2, h3⟩ := ih (off + b) r hr
      refine ⟨by omega, h2, ?_⟩
      rw [hexp]; omega

theorem rangesFrom_rlen (b : Int) (k : Nat) :
    ∀ off, ∀ r ∈ rangesFrom off b k, r.rlen = b := by
  induction k with
  | zero => intro off r hr; simp [rangesFrom] at hr
  | succ k ih =>
    intro off r hr
    simp only [rangesFrom, List.mem_cons] at hr
    rcases hr with hr | hr
    · subst hr; show off + b - 1 - off + 1 = b; ring
    · exact ih (off + b) r hr

theorem rangesFrom_sum (b : Int) (k : Nat) :
    ∀ off, ((rangesFrom off b k).map Range.rlen).sum = b * k := by
  induction k with
  | zero => intro off; simp [rangesFrom]
  | succ k ih =>
    intro off
    show Range.rlen ⟨off, off + b - 1⟩ + ((rangesFrom (off + b) b k).map Range.rlen).sum
        = b * ((k : Nat) + 1 : Nat)
    rw [ih (off + b)]
    show off + b - 1 - off + 1 + b * (k : Int) = b * ((k : Nat) + 1 : Nat)
    push_cast; ring

theorem rangesFrom_cover (b : Int) (hb : 1 ≤ b) (k : Nat) :
    ∀ off (x : Int),
      (∃ r ∈ rangesFrom off b k, r.start ≤ x ∧ x ≤ r.stop) ↔
        (off ≤ x ∧ x ≤ off + b * k - 1) := by
  induction k with
  | zero =>
    intro off x
    constructor
    · rintro ⟨r, hr, -⟩
      simp [rangesFrom] at hr
    · rintro ⟨h1, h2⟩
      exfalso
      have h0 : b * ((0 : Nat) : Int) = 0 := by norm_num
      rw [h0] at h2
      omega
  | succ k ih =>
    intro off x
    have hbk : 0 ≤ b * (k : Int) := mul_nonneg (by omega) (by positivity)
    have hexp : b * ((k : Nat) + 1 : Nat) = b * (k : Int) + b := by push_cast; ring
    constructor
    · rintro ⟨r, hr, hx1, hx2⟩
      simp only [rangesFrom, List.mem_cons] at hr
      rcases hr with hr | hr
      · subst hr
        have hx1' : off ≤ x := hx1
        have hx2' : x ≤ off + b - 1 := hx2
        rw [hexp]
        omega
      · have := (ih (off + b) x).mp ⟨r, hr, hx1, hx2⟩
        rw [hexp]
        omega
    · rintro ⟨h1, h2⟩
      rw [hexp] at h2
      by_cases hcase : x ≤ off + b - 1
      · exact ⟨⟨off, off + b - 1⟩, List.mem_cons_self _ _, h1, hcase⟩
      · have hx : off + b ≤ x ∧ x ≤ (off + b) + b * k - 1 := by omega
        obtain ⟨r, hr, hspan⟩ := (ih (off + b) x).mpr hx
        exact ⟨r, List.mem_cons_of_mem _ hr, hspan⟩

theorem rangesFrom_chain (b : Int) (k : Nat) :
    ∀ off, List.Chain' (fun a c => a.stop + 1 = c.start) (rangesFrom off b k) := by
  induction k with
  | zero => intro off; exact List.chain'_nil
  | succ k ih =>
    intro off
    show List.Chain' _ (⟨off, off + b - 1⟩ :: rangesFrom (off + b) b k)
    rw [List.chain'_cons']
    refine ⟨?_, ih (off + b)⟩
    intro c hc
    cases k with
    | zero => simp [rangesFrom] at hc
    | succ k =>
      have hc' : c = ⟨off + b, off + b + b - 1⟩ := by
        simp only [rangesFrom, List.head?_cons, Option.mem_def, Option.some.injEq] at hc
        exact hc.symm
      subst hc'
      show off + b - 1 + 1 = off + b
      ring

/-- Spans of a proper (non-sentinel) range are just its inclusive
interval, whatever the total length. -/
theorem spans_proper (r : Range) (L x : Int) (h : r.start ≤ r.stop) :
    r.spans L x ↔ (r.start ≤ x ∧ x ≤ r.stop) := by
  unfold Range.spans
  rw [if_neg (not_lt.mpr h)]

theorem rangesFrom_pairwise (L b : Int) (hb : 1 ≤ b) (k : Nat) :
    ∀ off, List.Pairwise (Range.disjoint L) (rangesFrom off b k) := by
  induction k with
  | zero => intro off; exact List.Pairwise.nil
  | succ k ih =>
    intro off
    show List.Pairwise _ (⟨off, off + b - 1⟩ :: rangesFrom (off + b) b k)
    constructor
    · intro r hr
      obtain ⟨h1, h2, h3⟩ := rangesFrom_bounds b hb k (off + b) r hr
      intro x hx
      obtain ⟨ha, hc⟩ := hx
      rw [spans_proper _ L x (by show off ≤ off + b - 1; omega)] at ha
      rw [spans_proper r L x h2] at hc
      have ha' : off ≤ x ∧ x ≤ off + b - 1 := ha
      have hc' : r.start ≤ x ∧ x ≤ r.stop := hc
      omega
    · exact ih (off + b)

/-- In the multi-range case (`2 ≤ N`, `N ≤ L`), `download` dispatches
the closed-form plan: a first range of length `L/N + L%N` followed by
`N - 1` ranges of length `L/N`. -/
theorem download_ranges_multi (L : Int) (N : Nat) (h2 : 2 ≤ N) (hLN : (N : Int) ≤ L) :
    download_ranges L N =
      .ok (⟨0, L / N + L % N - 1⟩ ::
           rangesFrom (L / N + L % N) (L / N) (N - 1)) := by
  have hNne : N ≠ 0 := by omega
  have hN0 : ((N : Int)) ≠ 0 := by exact_mod_cast hNne
  have hNpos : (0 : Int) < N := by exact_mod_cast Nat.pos_of_ne_zero hNne
  have hnlt : ¬(L < (N : Int)) := not_lt.mpr hLN
  have hL0 : (0 : Int) < L := by
    have : (2 : Int) ≤ (N : Int) := by exact_mod_cast h2
    omega
  have hb : 1 ≤ L / (N : Int) := by
    rw [Int.le_ediv_iff_mul_le hNpos]
    omega
  have hr0 : 0 ≤ L % (N : Int) := Int.emod_nonneg L hN0
  have hid : (N : Int) * (L / (N : Int)) + L % (N : Int) = L := Int.ediv_add_emod L N
  unfold download_ranges
  rw [if_neg hNne, if_neg hnlt]
  show (if N = 1 then Except.ok [(⟨0, -1⟩ : Range)] else _) = _
  rw [if_neg (show ¬(N = 1) by omega)]
  show Except.ok (planLoop (L.toNat + 1) L (L / (N : Int)) (L % (N : Int)) 0) = _
  congr 1
  rw [planLoop_cons L.toNat L (L / (N : Int)) (L % (N : Int)) 0 hL0]
  have e1 : 0 + L / (N : Int) + L % (N : Int) - 1 = L / (N : Int) + L % (N : Int) - 1 := by ring
  have e2 : 0 + L / (N : Int) + L % (N : Int) = L / (N : Int) + L % (N : Int) := by ring
  rw [e1, e2]
  congr 1
  have hcast : ((N - 1 : Nat) : Int) = (N : Int) - 1 := by
    rw [Nat.cast_sub (by omega : 1 ≤ N)]
    norm_num
  have hLeq : L = (L / (N : Int) + L % (N : Int)) + (L / (N : Int)) * ((N - 1 : Nat) : Int) := by
    rw [hcast]
    have : (L / (N : Int) + L % (N : Int)) + (L / (N : Int)) * ((N : Int) - 1)
        = (N : Int) * (L / (N : Int)) + L % (N : Int) := by ring
    rw [this, hid]
  have hfuel : N - 1 ≤ L.toNat := by omega
  calc planLoop L.toNat L (L / (N : Int)) 0 (L / (N : Int) + L % (N : Int))
      = planLoop L.toNat ((L / (N : Int) + L % (N : Int)) + (L / (N : Int)) * ((N - 1 : Nat) : Int))
          (L / (N : Int)) 0 (L / (N : Int) + L % (N : Int)) := by rw [← hLeq]
    _ = rangesFrom (L / (N : Int) + L % (N : Int)) (L / (N : Int)) (N - 1) :=
        planLoop_closed (N - 1) L.toNat _ _ hb hfuel

/-- When the length is below the thread count (this covers unknown
length 0) or only one thread is requested, `download` collapses to the
single sentinel call `getRange(f, u, 0, -1)`. -/
theorem download_ranges_single (L : Int) (N : Nat) (hN : 1 ≤ N)
    (h : L < (N : Int) ∨ N = 1) :
    download_ranges L N = .ok [⟨0, -1⟩] := by
  have hNne : N ≠ 0 := by omega
  have ht : (if L < (N : Int) then 1 else N) = 1 := by
    rcases h with hlt | h1
    · rw [if_pos hlt]
    · subst h1
      split <;> rfl
  unfold download_ranges
  rw [if_neg hNne, ht]
  show (if (1 : Nat) = 1 then Except.ok [(⟨0, -1⟩ : Range)] else _) = _
  rw [if_pos rfl]

/-- The HEAD response as `getContentLength` inspects it: status code,
the value of the `Accept-Ranges` header (empty when absent), and the
advertised content length (negative when unknown). -/
structure HeadResp where
  statusCode : Int
  acceptRanges : String
  contentLength : Int
deriving DecidableEq, Repr

/-- `getContentLength` (fasthttp.go lines 80-108) over the outcome of
`http.Head`: a transport error propagates; a status other than 200 is
the hard error `bad response code: <code>`; a missing
`Accept-Ranges: bytes` or a negative `ContentLength` degrades to
length 0 without error; otherwise the advertised length is returned. -/
def getContentLength (resp : Except String HeadResp) : Except String Int :=
  match resp with
  | .error e => .error e
  | .ok r =>
    if r.statusCode ≠ 200 then
      .error ("bad response code: " ++ toString r.statusCode)
    else if r.acceptRanges ≠ "bytes" then
      .ok 0
    else if r.contentLength < 0 then
      .ok 0
    else
      .ok r.contentLength

/-- The `Range` request header `getRange` attaches (fasthttp.go lines
206-208): present, as `bytes=<start>-<end>`, exactly when
`end >= start`. -/
def rangeHeader (start stop : Int) : Option String :=
  if stop ≥ start then
    some ("bytes=" ++ toString start ++ "-" ++ toString stop)
  else
    none

/-- One result of `resp.Body.Read(payload)`: the bytes delivered and
the returned error (`none` = `nil`; the Go error value, e.g. `io.EOF`
or a transport failure, otherwise). -/
def ReadResult : Type := List Nat × Option String

/-- The copy loop of `getRange` (fasthttp.go lines 235-247) over the
successive `Read` results, accumulating the `WriteAt` calls it issues
(absolute offset, bytes).  Each iteration writes the bytes it just
read — even the iteration whose `Read` reported an error — and the
loop continues only while the reported error is `nil`. -/
def readLoop (start : Int) : List ReadResult → List (Int × List Nat)
  | [] => []
  | (bs, e) :: rest =>
    (start, bs) :: (if e = none then readLoop (start + bs.length) rest else [])

/-- The body of a range response as `getRange` consumes it. -/
structure RangeResp where
  statusCode : Int
  body : List ReadResult

/-- `getRange` (fasthttp.go lines 201-250) over the outcome of
`client.Do`: returns the error `getRange` returns together with the
`WriteAt` calls it issued.  A transport error propagates with no
writes; a sentinel request (`end < start`) demands status 200 and a
range request demands status 206, with the failure message of lines
223/228; after the status check the copy loop runs and the function
returns `nil` (line 249) whatever ended the loop. -/
def getRange (start stop : Int) (resp : Except String RangeResp) :
    Option String × List (Int × List Nat) :=
  match resp with
  | .error e => (some e, [])
  | .ok r =>
    if stop < start then
      if r.statusCode ≠ 200 then
        (some ("bad response code: " ++ toString r.statusCode), [])
      else
        (none, readLoop start r.body)
    else
      if r.statusCode ≠ 206 then
        (some ("bad response code: " ++ toString r.statusCode ++
               " while reading bytes " ++ toString start ++ " through " ++ toString stop), [])
      else
        (none, readLoop start r.body)

/-- The in-memory sink (fasthttp.go lines 113-115): `arr` is the
backing array out to the slice's capacity, `len` the slice's logical
length; the Go slice `w.buffer` is `arr.take len`. -/
structure bufferWriterAt where
  arr : List Nat
  len : Nat
deriving DecidableEq, Repr

/-- The copy loop of `WriteAt` (fasthttp.go lines 126-129): write the
bytes of `p` into the backing array at successive offsets from `off`. -/
def writeBytes (arr : List Nat) (off : Nat) : List Nat → List Nat
  | [] => arr
  | byte :: rest => writeBytes (arr.set off byte) (off + 1) rest

/-- `bufferWriterAt.WriteAt` (fasthttp.go lines 119-131): if the write
does not fit in the current logical length (or `off < 0`), reslice to
logical length `len(p) + off` first; then copy; always report
`(len(p), nil)`.  (Go would panic when `len(p) + off` exceeds the
capacity or is negative; the claims stay inside the panic-free
domain, where this model is exact.) -/
def bufferWriterAt.WriteAt (w : bufferWriterAt) (p : List Nat) (off : Int) :
    bufferWriterAt × Nat × Option String :=
  let newLen :=
    if off < 0 ∨ (p.length : Int) + off > (w.len : Int) then
      ((p.length : Int) + off).toNat
    else
      w.len
  (⟨writeBytes w.arr off.toNat p, newLen⟩, p.length, none)

/-- Capacity used by `Get` when the length is unknown
(`math.MaxInt32`, fasthttp.go line 37). -/
def maxInt32 : Nat := 2147483647

/-- The buffer `Get` prepares (fasthttp.go lines 34-41): zero-length
with a huge zeroed capacity when the length is unknown, else a
real-sized zeroed buffer. -/
def mkGetBuffer (length : Int) : bufferWriterAt :=
  if length = 0 then
    ⟨List.replicate maxInt32 0, 0⟩
  else
    ⟨List.replicate length.toNat 0, length.toNat⟩

/-- `Get` (fasthttp.go lines 26-47) over the probe outcome and the
download phase.  `dl` stands for `download(&f, u, threads, length)`:
it receives the prepared buffer and yields the mutated buffer and the
error `download` returned.  The result's first component is the
returned byte slice (`none` = the `nil` slice of line 30), the second
the returned error. -/
def Get (probe : Except String Int) (dl : bufferWriterAt → bufferWriterAt × Option String) :
    Option (List Nat) × Option String :=
  match probe with
  | .error e => (none, some e)
  | .ok length =>
    let f := mkGetBuffer length
    let res := dl f
    (some (res.1.arr.take res.1.len), res.2)

theorem writeBytes_length (p : List Nat) : ∀ arr off,
    (writeBytes arr off p).length = arr.length := by
  induction p with
  | nil => intro arr off; rfl
  | cons byte rest ih =>
    intro arr off
    show (writeBytes (arr.set off byte) (off + 1) rest).length = arr.length
    rw [ih, List.length_set]

theorem writeBytes_getD_lt (p : List Nat) : ∀ arr off j, j < off →
    (writeBytes arr off p).getD j 0 = arr.getD j 0 := by
  induction p with
  | nil => intro arr off j _; rfl
  | cons byte rest ih =>
    intro arr off j hj
    show (writeBytes (arr.set off byte) (off + 1) rest).getD j 0 = arr.getD j 0
    rw [ih _ _ _ (by omega)]
    by_cases hjl : j < arr.length
    · rw [List.getD_eq_getElem _ _ (by rw [List.length_set]; exact hjl),
          List.getD_eq_getElem _ _ hjl]
      exact List.getElem_set_ne (by omega) _
    · rw [List.getD_eq_default _ _ (by rw [List.length_set]; omega),
          List.getD_eq_default _ _ (by omega)]

theorem writeBytes_getD_ge (p : List Nat) : ∀ arr off j, off + p.length ≤ j →
    (writeBytes arr off p).getD j 0 = arr.getD j 0 := by
  induction p with
  | nil => intro arr off j _; rfl
  | cons byte rest ih =>
    intro arr off j hj
    have hj' : off + (rest.length + 1) ≤ j := by
      simpa [List.length_cons] using hj
    show (writeBytes (arr.set off byte) (off + 1) rest).getD j 0 = arr.getD j 0
    rw [ih _ _ _ (by omega)]
    by_cases hjl : j < arr.length
    · rw [List.getD_eq_getElem _ _ (by rw [List.length_set]; exact hjl),
          List.getD_eq_getElem _ _ hjl]
      exact List.getElem_set_ne (by omega) _
    · rw [List.getD_eq_default _ _ (by rw [List.length_set]; omega),
          List.getD_eq_default _ _ (by omega)]

theorem writeBytes_getD_in (p : List Nat) : ∀ arr off i, i < p.length →
    off + p.length ≤ arr.length →
    (writeBytes arr off p).getD (off + i) 0 = p.getD i 0 := by
  induction p with
  | nil => intro arr off i hi _; simp at hi
  | cons byte rest ih =>
    intro arr off i hi hcap
    have hcap' : off + (rest.length + 1) ≤ arr.length := by
      simpa [List.length_cons] using hcap
    show (writeBytes (arr.set off byte) (off + 1) rest).getD (off + i) 0
        = (byte :: rest).getD i 0
    cases i with
    | zero =>
      rw [Nat.add_zero, writeBytes_getD_lt rest _ _ _ (by omega)]
      rw [List.getD_eq_getElem _ _ (by rw [List.length_set]; omega)]
      exact List.getElem_set_self _
    | succ i =>
      have hstep : off + (i + 1) = (off + 1) + i := by omega
      rw [hstep, ih (arr.set off byte) (off + 1) i (by simp at hi; omega)
            (by rw [List.length_set]; omega)]
      rfl

/-- The sentinel range's span is the whole resource. -/
theorem sentinel_spans (L x : Int) :
    (⟨0, -1⟩ : Range).spans L x ↔ (0 ≤ x ∧ x < L) := by
  unfold Range.spans
  rw [if_pos (by show (-1 : Int) < (0 : Int); norm_num)]

/-! ## Claim theorems -/

/-- C1: the claim says a failing fetcher's error is always reported —
but the error-collection loop overwrites `err` with every value
received on the channel, `nil` included.  With the three ranges
planned for `L = 1000`, `N = 3`, if the fetcher of `[0, 333]` fails
first (sending `bad response code: 500 while reading bytes 0 through
333`) and the two successful fetchers' `nil` results are received
after it, `download` returns `nil` even though a fetcher failed. -/
theorem download_errors_overwritten_by_later_nil :
    download_ranges 1000 3 = .ok [⟨0, 333⟩, ⟨334, 666⟩, ⟨667, 999⟩] ∧
    collectErrors [some ("bad response code: 500 while reading bytes 0 through 333"),
                   none, none] = none ∧
    collectErrors [none, none,
                   some ("bad response code: 500 while reading bytes 0 through 333")] ≠ none := by
  refine ⟨rfl, rfl, ?_⟩
  intro h
  simp [collectErrors] at h

/-- C2: the claim says a mid-stream read failure is surfaced as
`getRange`'s error.  In the code the copy loop merely stops on any
non-nil read error and `getRange` then returns `nil` (line 249): with
status 206 and a body whose second read fails with `connection
reset`, `getRange` writes the first chunk, stops, and reports no
error.  (End-of-stream terminating the loop without error — the
claim's second half — is the same code path.) -/
theorem getRange_read_error_swallowed :
    getRange 0 999 (.ok ⟨206, [([1, 2, 3], none), ([], some ("connection reset"))]⟩)
      = (none, [(0, [1, 2, 3]), (3, [])]) ∧
    getRange 0 999 (.ok ⟨206, [([1, 2, 3], none), ([], some ("EOF"))]⟩)
      = (none, [(0, [1, 2, 3]), (3, [])]) :=
  ⟨rfl, rfl⟩

/-- C5 counterexample: the plan the spec gives for `L = 1000`,
`N = 3` is not the one the code computes. -/
theorem plan_1000_3_counterexample :
    download_ranges 1000 3 ≠ .ok [⟨0, 335⟩, ⟨336, 668⟩, ⟨669, 999⟩] := by
  intro h
  rw [show download_ranges 1000 3 = Except.ok [⟨0, 333⟩, ⟨334, 666⟩, ⟨667, 999⟩] from rfl] at h
  injection h with h'
  exact absurd h' (by decide)

/-- C5 (amended): for `L = 1000`, `N = 3` the computed plan is
`[{0,333},{334,666},{667,999}]` — blocksize 333, remainder 1, the
first range absorbing the remainder (lengths 334, 333, 333). -/
theorem plan_1000_3_actual :
    download_ranges 1000 3 = .ok [⟨0, 333⟩, ⟨334, 666⟩, ⟨667, 999⟩] := rfl

/-- C6: when the length is 0 (unknown), or below the worker count, or
a single worker is requested, `download` performs exactly one
whole-resource call, the sentinel `(start, end) = (0, -1)`, and
`getRange` attaches no `Range` header for it. -/
theorem download_single_sentinel (L : Int) (N : Nat) (hN : 1 ≤ N)
    (h : L = 0 ∨ L < (N : Int) ∨ N = 1) :
    download_ranges L N = .ok [⟨0, -1⟩] ∧ rangeHeader 0 (-1) = none := by
  refine ⟨download_ranges_single L N hN ?_, rfl⟩
  rcases h with h | h | h
  · left
    subst h
    exact_mod_cast Nat.pos_of_ne_zero (by omega)
  · left; exact h
  · right; exact h

/-- C6 witness: `L = 0`, `N = 8` collapses to the sentinel. -/
theorem download_single_sentinel_witness :
    download_ranges 0 8 = .ok [⟨0, -1⟩] ∧ rangeHeader 0 (-1) = none :=
  download_single_sentinel 0 8 (by norm_num) (Or.inl rfl)

/-- C3: for every `L ≥ 0` and `1 ≤ N ≤ 255` the dispatched ranges are
pairwise disjoint and their spans cover exactly `[0, L)`; in the
multi-range case (`N ≥ 2`, `L ≥ N`) the plan is exactly `N` contiguous
non-empty ranges in increasing offset order whose lengths sum to
`L`. -/
theorem download_ranges_partition_spec (L : Int) (N : Nat)
    (hL : 0 ≤ L) (hN1 : 1 ≤ N) (hN255 : N ≤ 255) :
    ∃ ps, download_ranges L N = .ok ps ∧
      (∀ x : Int, (∃ r ∈ ps, r.spans L x) ↔ (0 ≤ x ∧ x < L)) ∧
      List.Pairwise (Range.disjoint L) ps ∧
      (2 ≤ N → (N : Int) ≤ L →
        ps.length = N ∧
        (ps.map Range.rlen).sum = L ∧
        List.Chain' (fun a c => a.stop + 1 = c.start) ps ∧
        ∀ r ∈ ps, r.start ≤ r.stop) := by
  by_cases hmulti : 2 ≤ N ∧ (N : Int) ≤ L
  · obtain ⟨h2, hLN⟩ := hmulti
    have hNne : N ≠ 0 := by omega
    have hN0 : ((N : Int)) ≠ 0 := by exact_mod_cast hNne
    have hNpos : (0 : Int) < N := by exact_mod_cast Nat.pos_of_ne_zero hNne
    have hb : 1 ≤ L / (N : Int) := by
      rw [Int.le_ediv_iff_mul_le hNpos]
      omega
    have hr0 : 0 ≤ L % (N : Int) := Int.emod_nonneg L hN0
    have hid : (N : Int) * (L / (N : Int)) + L % (N : Int) = L := Int.ediv_add_emod L N
    have hcast : ((N - 1 : Nat) : Int) = (N : Int) - 1 := by
      rw [Nat.cast_sub (by omega : 1 ≤ N)]
      norm_num
    set b := L / (N : Int) with hbdef
    set r := L % (N : Int) with hrdef
    have hnn : 0 ≤ b * ((N - 1 : Nat) : Int) := by
      apply mul_nonneg (by omega)
      positivity
    have hsum : (b + r) + b * ((N - 1 : Nat) : Int) = L := by
      rw [hcast]
      have : (b + r) + b * ((N : Int) - 1) = (N : Int) * b + r := by ring
      rw [this, hid]
    refine ⟨_, download_ranges_multi L N h2 hLN, ?_, ?_, ?_⟩
    · -- coverage
      intro x
      constructor
      · rintro ⟨r', hr', hsp⟩
        rcases List.mem_cons.mp hr' with rfl | hr'
        · rw [spans_proper _ L x (by show (0 : Int) ≤ b + r - 1; omega)] at hsp
          have hsp' : 0 ≤ x ∧ x ≤ b + r - 1 := hsp
          omega
        · obtain ⟨hb1, hb2, hb3⟩ := rangesFrom_bounds b hb (N - 1) (b + r) r' hr'
          rw [spans_proper r' L x hb2] at hsp
          have hsp' : r'.start ≤ x ∧ x ≤ r'.stop := hsp
          omega
      · rintro ⟨hx0, hxL⟩
        by_cases hc : x ≤ b + r - 1
        · refine ⟨⟨0, b + r - 1⟩, List.mem_cons_self _ _, ?_⟩
          rw [spans_proper _ L x (by show (0 : Int) ≤ b + r - 1; omega)]
          exact ⟨hx0, hc⟩
        · have hx : b + r ≤ x ∧ x ≤ (b + r) + b * (N - 1 : Nat) - 1 := by omega
          obtain ⟨r', hr', hsp⟩ := (rangesFrom_cover b hb (N - 1) (b + r) x).mpr hx
          refine ⟨r', List.mem_cons_of_mem _ hr', ?_⟩
          rw [spans_proper r' L x (rangesFrom_bounds b hb (N - 1) (b + r) r' hr').2.1]
          exact hsp
    · -- pairwise disjoint
      constructor
      · intro r' hr'
        obtain ⟨hb1, hb2, hb3⟩ := rangesFrom_bounds b hb (N - 1) (b + r) r' hr'
        intro x hx
        obtain ⟨hxh, hxr⟩ := hx
        rw [spans_proper _ L x (by show (0 : Int) ≤ b + r - 1; omega)] at hxh
        rw [spans_proper r' L x hb2] at hxr
        have hxh' : 0 ≤ x ∧ x ≤ b + r - 1 := hxh
        have hxr' : r'.start ≤ x ∧ x ≤ r'.stop := hxr
        omega
      · exact rangesFrom_pairwise L b hb (N - 1) (b + r)
    · -- the multi-range conjunct
      intro _ _
      refine ⟨?_, ?_, ?_, ?_⟩
      · rw [List.length_cons, rangesFrom_length]
        omega
      · show Range.rlen ⟨0, b + r - 1⟩
            + ((rangesFrom (b + r) b (N - 1)).map Range.rlen).sum = L
        rw [rangesFrom_sum]
        have hhead : Range.rlen ⟨0, b + r - 1⟩ = b + r := by
          show b + r - 1 - 0 + 1 = b + r
          ring
        rw [hhead]
        omega
      · rw [List.chain'_cons']
        refine ⟨?_, rangesFrom_chain b (N - 1) (b + r)⟩
        intro y hy
        obtain ⟨k, hk⟩ : ∃ k, N - 1 = k + 1 := ⟨N - 2, by omega⟩
        rw [hk] at hy
        have hy' : y = ⟨b + r, b + r + b - 1⟩ := by
          simp only [rangesFrom, List.head?_cons, Option.mem_def, Option.some.injEq] at hy
          exact hy.symm
        subst hy'
        show b + r - 1 + 1 = b + r
        ring
      · intro r' hr'
        rcases List.mem_cons.mp hr' with rfl | hr'
        · show (0 : Int) ≤ b + r - 1
          omega
        · exact (rangesFrom_bounds b hb (N - 1) (b + r) r' hr').2.1
  · -- single-range (sentinel) case
    have hcase : L < (N : Int) ∨ N = 1 := by
      by_cases h1 : N = 1
      · right; exact h1
      · left
        have h2 : 2 ≤ N := by omega
        by_contra hno
        exact hmulti ⟨h2, not_lt.mp hno⟩
    refine ⟨[⟨0, -1⟩], download_ranges_single L N hN1 hcase, ?_, ?_, ?_⟩
    · intro x
      constructor
      · rintro ⟨r', hr', hsp⟩
        have hr'' : r' = ⟨0, -1⟩ := by simpa using hr'
        subst hr''
        exact (sentinel_spans L x).mp hsp
      · intro hx
        exact ⟨⟨0, -1⟩, List.mem_cons_self _ _, (sentinel_spans L x).mpr hx⟩
    · exact List.pairwise_singleton _ _
    · intro h2 hLN
      exfalso
      rcases hcase with h | h
      · omega
      · omega

/-- C3 witness: the partition property at `L = 10`, `N = 4`. -/
theorem download_ranges_partition_spec_witness :
    ∃ ps, download_ranges 10 4 = .ok ps ∧
      (∀ x : Int, (∃ r ∈ ps, r.spans 10 x) ↔ (0 ≤ x ∧ x < 10)) ∧
      List.Pairwise (Range.disjoint 10) ps ∧
      (2 ≤ 4 → ((4 : Nat) : Int) ≤ 10 →
        ps.length = 4 ∧
        (ps.map Range.rlen).sum = 10 ∧
        List.Chain' (fun a c => a.stop + 1 = c.start) ps ∧
        ∀ r ∈ ps, r.start ≤ r.stop) :=
  download_ranges_partition_spec 10 4 (by norm_num) (by norm_num) (by norm_num)

/-- C4: in the multi-range case the first planned range has length
exactly `L/N + L%N` (the first range absorbs the whole remainder) and
every subsequent range has length exactly `L/N`. -/
theorem download_first_range_absorbs_remainder (L : Int) (N : Nat)
    (h2 : 2 ≤ N) (hN255 : N ≤ 255) (hLN : (N : Int) ≤ L) :
    ∃ r0 rest, download_ranges L N = .ok (r0 :: rest) ∧
      r0.rlen = L / N + L % N ∧
      rest.length = N - 1 ∧
      ∀ r ∈ rest, r.rlen = L / N := by
  refine ⟨_, _, download_ranges_multi L N h2 hLN, ?_, ?_, ?_⟩
  · show L / (N : Int) + L % (N : Int) - 1 - 0 + 1 = L / (N : Int) + L % (N : Int)
    ring
  · exact rangesFrom_length _ _ _
  · exact rangesFrom_rlen _ _ _

/-- C4 witness: at `L = 1000`, `N = 3`. -/
theorem download_first_range_absorbs_remainder_witness :
    ∃ r0 rest, download_ranges 1000 3 = .ok (r0 :: rest) ∧
      r0.rlen = 1000 / ((3 : Nat) : Int) + 1000 % ((3 : Nat) : Int) ∧
      rest.length = 3 - 1 ∧
      ∀ r ∈ rest, r.rlen = 1000 / ((3 : Nat) : Int) :=
  download_first_range_absorbs_remainder 1000 3 (by norm_num) (by norm_num) (by norm_num)

/-- C7: a transport failure of the HEAD request propagates as a hard
error; a non-200 status is the hard error `bad response code`; a 200
status without `Accept-Ranges: bytes` or with a negative content
length degrades to length 0 with no error; and a positive reported
length implies status 200, `Accept-Ranges: bytes` and a non-negative
advertised length (which is the value returned). -/
theorem getContentLength_spec (r : HeadResp) :
    (∀ e, getContentLength (.error e) = .error e) ∧
    (r.statusCode ≠ 200 →
      getContentLength (.ok r) = .error ("bad response code: " ++ toString r.statusCode)) ∧
    (r.statusCode = 200 → (r.acceptRanges ≠ "bytes" ∨ r.contentLength < 0) →
      getContentLength (.ok r) = .ok 0) ∧
    (∀ L, getContentLength (.ok r) = .ok L → 0 < L →
      r.statusCode = 200 ∧ r.acceptRanges = "bytes" ∧ 0 ≤ r.contentLength ∧
      L = r.contentLength) := by
  refine ⟨fun e => rfl, ?_, ?_, ?_⟩
  · intro h
    show (if r.statusCode ≠ 200 then _ else _) = _
    rw [if_pos h]
  · intro h200 hdeg
    show (if r.statusCode ≠ 200 then _
          else if r.acceptRanges ≠ "bytes" then Except.ok 0
          else if r.contentLength < 0 then Except.ok 0
          else Except.ok r.contentLength) = Except.ok 0
    rw [if_neg (by simp [h200])]
    by_cases ha : r.acceptRanges ≠ "bytes"
    · rw [if_pos ha]
    · rw [if_neg ha]
      rcases hdeg with h | h
      · exact absurd h ha
      · rw [if_pos h]
  · intro L hL hpos
    have hL' : (if r.statusCode ≠ 200 then
          Except.error ("bad response code: " ++ toString r.statusCode)
        else if r.acceptRanges ≠ "bytes" then Except.ok 0
        else if r.contentLength < 0 then Except.ok 0
        else Except.ok r.contentLength) = Except.ok L := hL
    split_ifs at hL' with h1 h2 h3
    · exfalso
      have hz : (0 : Int) = L := by injection hL'
      omega
    · exfalso
      have hz : (0 : Int) = L := by injection hL'
      omega
    · have hz : r.contentLength = L := by injection hL'
      refine ⟨by simpa using h1, by simpa using h2, by omega, hz.symm⟩

/-- C7 witness: a 404 HEAD status is a hard error; a 200 status
without partial-content support degrades to length 0. -/
theorem getContentLength_spec_witness :
    getContentLength (.ok ⟨404, "", 10⟩)
      = .error ("bad response code: " ++ toString (404 : Int)) ∧
    getContentLength (.ok ⟨200, "", 10⟩) = .ok 0 :=
  ⟨(getContentLength_spec ⟨404, "", 10⟩).2.1 (by decide),
   (getContentLength_spec ⟨200, "", 10⟩).2.2.1 rfl (Or.inl (by decide))⟩

/-- C8: for a proper range (`end ≥ start`) `getRange` attaches the
header `bytes=<start>-<end>` and, given a transported response, fails
with a message naming the expected span unless the status is 206; for
the sentinel (`end < start`) no range header is attached and any
status other than 200 fails. -/
theorem getRange_status_spec (start stop code : Int) (body : List ReadResult) :
    (start ≤ stop →
      rangeHeader start stop = some ("bytes=" ++ toString start ++ "-" ++ toString stop) ∧
      (code ≠ 206 → (getRange start stop (.ok ⟨code, body⟩)).1 =
        some ("bad response code: " ++ toString code ++ " while reading bytes "
              ++ toString start ++ " through " ++ toString stop)) ∧
      (code = 206 → (getRange start stop (.ok ⟨code, body⟩)).1 = none)) ∧
    (stop < start →
      rangeHeader start stop = none ∧
      (code ≠ 200 → (getRange start stop (.ok ⟨code, body⟩)).1 =
        some ("bad response code: " ++ toString code)) ∧
      (code = 200 → (getRange start stop (.ok ⟨code, body⟩)).1 = none)) := by
  constructor
  · intro hle
    refine ⟨?_, ?_, ?_⟩
    · unfold rangeHeader
      rw [if_pos hle]
    · intro hcode
      show (if stop < start then _
            else if code ≠ 206 then
              (some ("bad response code: " ++ toString code ++ " while reading bytes "
                     ++ toString start ++ " through " ++ toString stop), [])
            else (none, readLoop start body)).1 = _
      rw [if_neg (not_lt.mpr hle), if_pos hcode]
    · intro hcode
      show (if stop < start then _
            else if code ≠ 206 then _
            else ((none : Option String), readLoop start body)).1 = _
      rw [if_neg (not_lt.mpr hle), if_neg (by simp [hcode])]
  · intro hlt
    refine ⟨?_, ?_, ?_⟩
    · unfold rangeHeader
      rw [if_neg (not_le.mpr hlt)]
    · intro hcode
      show (if stop < start then
              if code ≠ 200 then
                (some ("bad response code: " ++ toString code), ([] : List (Int × List Nat)))
              else (none, readLoop start body)
            else _).1 = _
      rw [if_pos hlt, if_pos hcode]
    · intro hcode
      show (if stop < start then
              if code ≠ 200 then _
              else ((none : Option String), readLoop start body)
            else _).1 = _
      rw [if_pos hlt, if_neg (by simp [hcode])]

/-- C8 witness: a 500 status on range `[0, 9]` fails with the span in
the message; status 206 there succeeds; the sentinel sends no header
and accepts 200. -/
theorem getRange_status_spec_witness :
    rangeHeader 0 9 = some ("bytes=0-9") ∧
    (getRange 0 9 (.ok ⟨500, []⟩)).1
      = some ("bad response code: 500 while reading bytes 0 through 9") ∧
    (getRange 0 9 (.ok ⟨206, []⟩)).1 = none ∧
    rangeHeader 0 (-1) = none ∧
    (getRange 0 (-1) (.ok ⟨200, []⟩)).1 = none := by
  refine ⟨?_, ?_, ?_, ?_, ?_⟩
  · rw [(getRange_status_spec 0 9 500 []).1 (by norm_num) |>.1]
    rfl
  · rw [((getRange_status_spec 0 9 500 []).1 (by norm_num)).2.1 (by norm_num)]
    rfl
  · exact ((getRange_status_spec 0 9 206 []).1 (by norm_num)).2.2 rfl
  · exact ((getRange_status_spec 0 (-1) 200 []).2 (by norm_num)).1
  · exact ((getRange_status_spec 0 (-1) 200 []).2 (by norm_num)).2.2 rfl

/-- C9: inside the panic-free domain (`off ≥ 0`,
`off + len(p) ≤ cap`), `WriteAt` grows the logical length to exactly
`off + len(p)` when that exceeds the current length (else leaves it),
copies `p` to positions `[off, off + len(p))` of the backing array,
leaves every other byte of the backing array untouched, and returns
`(len(p), nil)`. -/
theorem WriteAt_spec (w : bufferWriterAt) (p : List Nat) (off : Int)
    (hoff : 0 ≤ off) (hcap : off.toNat + p.length ≤ w.arr.length) :
    ((w.WriteAt p off).1.len
        = if w.len < off.toNat + p.length then off.toNat + p.length else w.len) ∧
    (w.WriteAt p off).1.arr.length = w.arr.length ∧
    (∀ i, i < p.length →
      (w.WriteAt p off).1.arr.getD (off.toNat + i) 0 = p.getD i 0) ∧
    (∀ j, j < off.toNat ∨ off.toNat + p.length ≤ j →
      (w.WriteAt p off).1.arr.getD j 0 = w.arr.getD j 0) ∧
    (w.WriteAt p off).2 = (p.length, none) := by
  refine ⟨?_, ?_, ?_, ?_, rfl⟩
  · show (if off < 0 ∨ (p.length : Int) + off > (w.len : Int) then
            ((p.length : Int) + off).toNat
          else w.len) = _
    by_cases hc : (p.length : Int) + off > (w.len : Int)
    · rw [if_pos (Or.inr hc), if_pos (by omega)]
      omega
    · rw [if_neg (by rw [not_or]; exact ⟨not_lt.mpr hoff, hc⟩), if_neg (by omega)]
  · exact writeBytes_length p w.arr off.toNat
  · intro i hi
    exact writeBytes_getD_in p w.arr off.toNat i hi hcap
  · intro j hj
    rcases hj with hj | hj
    · exact writeBytes_getD_lt p w.arr off.toNat j hj
    · exact writeBytes_getD_ge p w.arr off.toNat j hj

/-- C9 witness: writing `[9, 8]` at offset 2 into a buffer of logical
length 3 and capacity 5 grows the length to 4, writes positions 2-3,
keeps positions 0, 1 and 4, and reports `(2, nil)`. -/
theorem WriteAt_spec_witness :
    ((bufferWriterAt.mk [5, 6, 7, 0, 0] 3).WriteAt [9, 8] 2).1.len = 4 ∧
    ((bufferWriterAt.mk [5, 6, 7, 0, 0] 3).WriteAt [9, 8] 2).1.arr.getD 2 0 = 9 ∧
    ((bufferWriterAt.mk [5, 6, 7, 0, 0] 3).WriteAt [9, 8] 2).1.arr.getD 3 0 = 8 ∧
    ((bufferWriterAt.mk [5, 6, 7, 0, 0] 3).WriteAt [9, 8] 2).1.arr.getD 1 0 = 6 ∧
    ((bufferWriterAt.mk [5, 6, 7, 0, 0] 3).WriteAt [9, 8] 2).2 = (2, none) := by
  have h := WriteAt_spec (bufferWriterAt.mk [5, 6, 7, 0, 0] 3) [9, 8] 2
    (by norm_num) (by decide)
  refine ⟨?_, ?_, ?_, ?_, h.2.2.2.2⟩
  · rw [h.1]
    decide
  · exact h.2.2.1 0 (by norm_num)
  · exact h.2.2.1 1 (by norm_num)
  · have hkeep := h.2.2.2.1 1 (Or.inl (by decide))
    rw [hkeep]
    rfl

/-- C10: a probe failure makes `Get` return the `nil` slice and the
probe's error, independently of the download phase (which is never
invoked on that path); a download failure after a successful probe
still returns the buffer (a non-nil slice) alongside the error. -/
theorem Get_error_propagation :
    (∀ e dl, Get (.error e) dl = (none, some e)) ∧
    (∀ (L : Int) dl f' err, dl (mkGetBuffer L) = (f', some err) →
      Get (.ok L) dl = (some (f'.arr.take f'.len), some err)) := by
  constructor
  · intro e dl
    rfl
  · intro L dl f' err hdl
    show (some ((dl (mkGetBuffer L)).1.arr.take (dl (mkGetBuffer L)).1.len),
          (dl (mkGetBuffer L)).2) = _
    rw [hdl]

/-- C10 witness: a failed probe yields `(nil, probe error)` whatever
the downloader would do; a failed download after probing length 3
yields the (here untouched) non-nil buffer and the error. -/
theorem Get_error_propagation_witness :
    Get (.error ("HEAD failed")) (fun f => (f, none)) = (none, some ("HEAD failed")) ∧
    Get (.ok 3) (fun f => (f, some ("transfer failed")))
      = (some [0, 0, 0], some ("transfer failed")) := by
  refine ⟨Get_error_propagation.1 ("HEAD failed") _, ?_⟩
  rw [Get_error_propagation.2 3 (fun f => (f, some ("transfer failed")))
    (mkGetBuffer 3) ("transfer failed") rfl]
  rfl

end Fasthttp
